import Mathlib

/-!
Shallow embedding of the n-back console program (`nback.cpp`).

The program's core is a fixed-capacity circular buffer `ring_t<t_type, size>`
over C `int`s, with forward and reverse iterators, the two match-evaluation
functions `is_guess_correct` and `has_nback` built on the reverse iterator,
and the timed input-acquisition routine `try_get_guess_with_timeout`.

Machine integers are modelled as `Int`; the C++ `%` and `/` on `int` truncate
toward zero, which is `Int.tmod` / `Int.tdiv` (not Lean's `%`, which is the
Euclidean `emod`).  The backing array `t_type data[size]` is modelled as a
total function `Int → Int`: C++ array indexing takes an `int` index, and the
in-bounds claims are proved, not assumed.
-/

/-- C/C++ `%` on `int`: truncated remainder. -/
def cppMod (a b : Int) : Int := Int.tmod a b

/-- C/C++ `/` on `int`: truncated quotient. -/
def cppDiv (a b : Int) : Int := Int.tdiv a b

/-- State of `ring_t<int, size>`: fields `head_index`, `tail_index`, `count`
and the backing array `data` (total over `Int`, as C++ indexing takes `int`). -/
structure ring_t (size : Nat) where
  head_index : Int
  tail_index : Int
  count : Int
  data : Int → Int

namespace ring_t

variable {size : Nat}

/-- The constructor `ring_t() : head_index(-1), tail_index(0), count(0) {}`.
The array contents start indeterminate; `0` stands for the arbitrary initial
contents (never read through the public interface before being written). -/
def init (size : Nat) : ring_t size :=
  { head_index := -1, tail_index := 0, count := 0, data := fun _ => 0 }

/-- `get_count()`. -/
def get_count (r : ring_t size) : Int := r.count

/-- `is_empty()`: `head_index == -1`. -/
def is_empty (r : ring_t size) : Bool := r.head_index = -1

/-- `is_full()`: `!is_empty() && (head_index + 1) % size == tail_index`. -/
def is_full (r : ring_t size) : Bool :=
  !r.is_empty && cppMod (r.head_index + 1) size = r.tail_index

/-- `enqueue(other)`: `head_index = (head_index + 1) % size; ++count;
data[head_index] = other;`. -/
def enqueue (r : ring_t size) (other : Int) : ring_t size :=
  let h := cppMod (r.head_index + 1) size
  { head_index := h
    tail_index := r.tail_index
    count := r.count + 1
    data := fun i => if i = h then other else r.data i }

/-- `clear()`: `count = 0; tail_index = 0; head_index = -1;`. -/
def clear (r : ring_t size) : ring_t size :=
  { r with count := 0, tail_index := 0, head_index := -1 }

/-- `dequeue()`: remembers `old_tail_index`, then clears if
`tail_index == head_index`, else advances `tail_index` circularly and
decrements `count`; returns `data[old_tail_index]`. -/
def dequeue (r : ring_t size) : Int × ring_t size :=
  let v := r.data r.tail_index
  if r.tail_index = r.head_index then
    (v, r.clear)
  else
    (v, { r with tail_index := cppMod (r.tail_index + 1) size,
                 count := r.count - 1 })

/-- `c_const_iterator_base::is_valid()`: `m_inc < m_source->count`. -/
def it_is_valid (r : ring_t size) (m_inc : Int) : Bool := m_inc < r.count

/-- `c_const_iterator::get_data_index()`: `(tail + m_inc) % size`. -/
def fwd_data_index (r : ring_t size) (m_inc : Int) : Int :=
  cppMod (r.tail_index + m_inc) size

/-- `c_const_reverse_iterator::get_virtual_head()`:
`head_index < tail_index ? head_index + size : head_index`. -/
def get_virtual_head (r : ring_t size) : Int :=
  if r.head_index < r.tail_index then r.head_index + size else r.head_index

/-- `c_const_reverse_iterator::get_data_index()`:
`(virtual_head - m_inc) % size`. -/
def rev_data_index (r : ring_t size) (m_inc : Int) : Int :=
  cppMod (r.get_virtual_head - m_inc) size

/-- The values produced by the forward iterator loop
`for (it = iterate(); it.is_valid(); it.next()) use it.get();`:
`m_inc` runs `0, 1, …` while `m_inc < count`, and `get()` reads
`data[get_data_index()]`. -/
def iterate_list (r : ring_t size) : List Int :=
  (List.range r.count.toNat).map fun i : Nat => r.data (r.fwd_data_index (i : Int))

/-- The values produced by the reverse iterator loop
`for (it = iterate_reverse(); it.is_valid(); it.next()) use it.get();`. -/
def iterate_reverse_list (r : ring_t size) : List Int :=
  (List.range r.count.toNat).map fun i : Nat => r.data (r.rev_data_index (i : Int))

/-- Enqueue a whole list in order (the session loop's repeated `enqueue`). -/
def enqueue_all (r : ring_t size) : List Int → ring_t size
  | [] => r
  | v :: vs => (r.enqueue v).enqueue_all vs

end ring_t

/-- `typedef ring_t<int, 7> n_back_buffer;`. -/
abbrev n_back_buffer := ring_t 7

/-- The loop of `is_guess_correct`, with loop variables `counter` (always in
lock-step with the iterator's `m_inc`), `head_value` and `result`.  The guard
is `guess_back >= counter && it.is_valid()`; the body sets
`head_value = it.get()` at `counter == 0`, and otherwise assigns
`result = (it.get() == head_value)` only when `counter == guess_back`.
`fuel` bounds the iteration count; the caller passes enough for the guard
to exhaust itself. -/
def guess_loop (r : n_back_buffer) (guess_back : Int) :
    Nat → Int → Int → Bool → Bool
  | 0, _, _, result => result
  | fuel + 1, counter, head_value, result =>
    if guess_back ≥ counter ∧ counter < r.count then
      let v := r.data (r.rev_data_index counter)
      if counter = 0 then
        guess_loop r guess_back fuel (counter + 1) v result
      else if counter = guess_back then
        guess_loop r guess_back fuel (counter + 1) head_value (v = head_value)
      else
        guess_loop r guess_back fuel (counter + 1) head_value result
    else result

/-- `is_guess_correct(past, guess_back)`: `result = false`; if
`guess_back < past.get_count()` run the reverse-iterator loop with
`counter = 0`, `head_value = -1`; return `result`. -/
def is_guess_correct (past : n_back_buffer) (guess_back : Int) : Bool :=
  if guess_back < past.get_count then
    guess_loop past guess_back (past.count.toNat + 1) 0 (-1) false
  else false

/-- The loop of `has_nback`: guard `!result && it.is_valid()`; at
`counter == 0` record `head_value = it.get()`, afterwards set `result = true`
as soon as `it.get() == head_value` (which ends the loop at the next guard
check, so it is rendered as returning `true` immediately). -/
def nback_loop (r : n_back_buffer) : Nat → Int → Int → Bool
  | 0, _, _ => false
  | fuel + 1, counter, head_value =>
    if counter < r.count then
      let v := r.data (r.rev_data_index counter)
      if counter = 0 then
        nback_loop r fuel (counter + 1) v
      else if v = head_value then true
      else nback_loop r fuel (counter + 1) head_value
    else false

/-- `has_nback(past)`: reverse-iterator loop with `counter = 0`,
`head_value = -1`, `result = false`. -/
def has_nback (past : n_back_buffer) : Bool :=
  nback_loop past (past.count.toNat + 1) 0 (-1)

/-! ## Timed input acquisition (`try_get_guess_with_timeout`)

The routine polls `stdin` via `select` in fixed 50 ms slices up to a deadline.
The real-time and file-descriptor machinery is abstracted to a schedule
`input : Nat → Option String`: `input cnt = some line` means `select` reported
data during slice `cnt` and `fgets` read `line`; `none` means the slice timed
out.  Everything else — the slice count derived from the timeout setting, the
newline stripping, the `sscanf("%d")` parse, and the threading of the output
slot — is translated from the source. -/

/-- `struct optional { bool is_set; t_type value; };`. -/
structure c_optional (α : Type) where
  is_set : Bool
  value : α

def msec_per_sec : Int := 1000
def usec_per_msec : Int := 1000
def usec_per_sec : Int := usec_per_msec * msec_per_sec

def per_select_timeout_usec : Int := 50 * usec_per_msec
def default_guess_timeout_sec : Int := 2

/-- `total_timeout_seconds = opt.is_set ? opt.value : default`. -/
def total_timeout_seconds (opt_guess_timeout_sec : c_optional Int) : Int :=
  if opt_guess_timeout_sec.is_set then opt_guess_timeout_sec.value
  else default_guess_timeout_sec

/-- `iterations_before_give_up = total_timeout_seconds*usec_per_sec/per_select_timeout_usec`. -/
def iterations_before_give_up (opt_guess_timeout_sec : c_optional Int) : Int :=
  cppDiv (total_timeout_seconds opt_guess_timeout_sec * usec_per_sec)
    per_select_timeout_usec

/-- One character of C `isspace` in the default locale (what `sscanf`'s `%d`
skips before the number). -/
def c_is_space (c : Char) : Bool :=
  c = ' ' || c = '\t' || c = '\n' || c = '\x0b' || c = '\x0c' || c = '\r'

/-- Digits as a natural number, most significant first. -/
def digits_value (ds : List Char) : Nat :=
  ds.foldl (fun a c => a * 10 + (c.toNat - 48)) 0

/-- A maximal leading run of decimal digits, or `none` when there is none. -/
def leading_digits (cs : List Char) : Option Nat :=
  match cs.takeWhile Char.isDigit with
  | [] => none
  | ds => some (digits_value ds)

/-- `sscanf(buff, "%d", &out) > 0`: skip leading whitespace, allow one sign,
then require at least one digit; trailing characters are ignored.  (Overflow
of the C `int` is not modelled; the session only ever types small guesses.) -/
def sscanf_d (s : String) : Option Int :=
  let cs := s.toList.dropWhile c_is_space
  match cs with
  | '-' :: rest => (leading_digits rest).map fun n => -(n : Int)
  | '+' :: rest => (leading_digits rest).map fun n => (n : Int)
  | _ => (leading_digits cs).map fun n => (n : Int)

/-- The newline stripping after `fgets`: `read_len = strlen(buff) - 1;
if (buff[read_len] == '\n') buff[read_len] = '\0';`. -/
def chomp (s : String) : String :=
  match s.toList.getLast? with
  | some '\n' => String.mk s.toList.dropLast
  | _ => s

/-- The polling loop of `try_get_guess_with_timeout`: `cnt` runs while
`!result && cnt < iterations_before_give_up`.  When slice `cnt` delivers a
line that parses, `sscanf` writes the slot and `result` becomes `true`
(ending the loop); a non-parsing line leaves the slot alone and polling
continues.  Returns `(result, out_user_guess)`. -/
def guess_poll_loop (input : Nat → Option String) (iterations : Int) :
    Nat → Nat → Int → Bool × Int
  | 0, _, slot => (false, slot)
  | fuel + 1, cnt, slot =>
    if (cnt : Int) < iterations then
      match input cnt with
      | none => guess_poll_loop input iterations fuel (cnt + 1) slot
      | some line =>
        match sscanf_d (chomp line) with
        | some v => (true, v)
        | none => guess_poll_loop input iterations fuel (cnt + 1) slot
    else (false, slot)

/-- `try_get_guess_with_timeout(current_value, opt_guess_timeout_sec,
out_user_guess)` over an input schedule; `slot` is the value of
`out_user_guess` on entry, and the second component is its value on return. -/
def try_get_guess_with_timeout (opt_guess_timeout_sec : c_optional Int)
    (input : Nat → Option String) (slot : Int) : Bool × Int :=
  guess_poll_loop input (iterations_before_give_up opt_guess_timeout_sec)
    ((iterations_before_give_up opt_guess_timeout_sec).toNat + 1) 0 slot

/-! ## Abstraction invariant and reachable states

`inv r l` relates a `ring_t` state to the list `l` of its live values,
oldest to newest.  `reachable` is the set of states produced by the public
mutators under their contracts (`enqueue` only when not full, `dequeue` only
when non-empty), starting from the constructor. -/

namespace ring_t

/-- The abstraction invariant: `count` tracks the number of live values,
an empty buffer is in the sentinel state, and a non-empty buffer keeps its
`i`-th oldest live value at physical slot `(tail_index + i) % size` with
`head_index` the slot of the newest. -/
def inv {size : Nat} (r : ring_t size) (l : List Int) : Prop :=
  r.count = l.length ∧ l.length ≤ size ∧
  (l = [] → r.head_index = -1 ∧ r.tail_index = 0) ∧
  (l ≠ [] →
    0 ≤ r.tail_index ∧ r.tail_index < size ∧
    r.head_index = (r.tail_index + r.count - 1) % (size : Int) ∧
    ∀ i : Nat, i < l.length →
      r.data ((r.tail_index + i) % (size : Int)) = l.getD i 0)

/-- States reachable from the constructor by contract-respecting `enqueue`
(never on a full buffer), `dequeue` (never on an empty buffer) and `clear`,
together with the list of live values they hold. -/
inductive reachable (size : Nat) : ring_t size → List Int → Prop
  | init : reachable size (ring_t.init size) []
  | enqueue {r : ring_t size} {l : List Int} (v : Int) :
      reachable size r l → l.length < size →
      reachable size (r.enqueue v) (l ++ [v])
  | dequeue {r : ring_t size} {v : Int} {l : List Int} :
      reachable size r (v :: l) → reachable size (r.dequeue).2 l
  | clear {r : ring_t size} {l : List Int} :
      reachable size r l → reachable size r.clear []

end ring_t


/-- The test sequence's buffer `[5,6,7,8,9,4,5]` oldest-to-newest. -/
def buf_5657 : n_back_buffer :=
  (ring_t.init 7).enqueue_all [5, 6, 7, 8, 9, 4, 5]



/-! ## Basic arithmetic bridges -/

/-- On non-negative arguments the C `%` agrees with Lean's Euclidean `%`. -/
theorem cppMod_eq_emod {a : Int} (b : Nat) (ha : 0 ≤ a) :
    cppMod a b = a % (b : Int) :=
  Int.tmod_eq_emod ha (Int.natCast_nonneg b)

/-- Shifting by `d` with `0 < d < b` moves to a different residue. -/
theorem emod_ne_of_lt {a d : Int} {b : Nat} (hd0 : 0 < d) (hdb : d < (b : Int)) :
    (a + d) % (b : Int) ≠ a % (b : Int) := by
  intro hEq
  have h1 : (a + d - a) % (b : Int) = 0 :=
    Int.emod_eq_emod_iff_emod_sub_eq_zero.mp hEq
  have h2 : a + d - a = d := by ring
  rw [h2, Int.emod_eq_of_lt (le_of_lt hd0) hdb] at h1
  omega

namespace ring_t

variable {size : Nat}

/-! ## The invariant holds in every reachable state -/

theorem inv_init (size : Nat) : (init size).inv [] := by
  refine ⟨by simp [init], by simp, fun _ => ⟨rfl, rfl⟩, fun h => absurd rfl h⟩

theorem inv_clear (r : ring_t size) : r.clear.inv [] := by
  refine ⟨by simp [clear], by simp, fun _ => ⟨rfl, rfl⟩, fun h => absurd rfl h⟩

theorem inv_enqueue {r : ring_t size} {l : List Int} (v : Int)
    (h : r.inv l) (hlt : l.length < size) : (r.enqueue v).inv (l ++ [v]) := by
  obtain ⟨hc, hle, hemp, hne⟩ := h
  have hsize : 0 < size := Nat.lt_of_le_of_lt (Nat.zero_le _) hlt
  have hsz : (0 : Int) < size := by exact_mod_cast hsize
  rcases eq_or_ne l [] with hl | hl
  · subst hl
    obtain ⟨hh, ht⟩ := hemp rfl
    have hcnt : r.count = 0 := by simpa using hc
    have hmod : cppMod (r.head_index + 1) size = 0 := by
      rw [hh]
      show cppMod 0 size = 0
      rw [cppMod_eq_emod size le_rfl, Int.zero_emod]
    constructor
    · simp [enqueue, hcnt]
    refine ⟨by simpa using hsize, fun hcontra => by simp at hcontra, fun _ => ?_⟩
    refine ⟨by rw [enqueue, ht], ?_, ?_, ?_⟩
    · rw [enqueue]; simp only [ht]; exact hsz
    · show cppMod (r.head_index + 1) size = (r.tail_index + (r.enqueue v).count - 1) % size
      rw [hmod, enqueue, ht, hcnt]
      norm_num
    · intro i hi
      have hi0 : i = 0 := by simpa using hi
      subst hi0
      show (r.enqueue v).data ((r.tail_index + 0) % size) = _
      rw [ht]
      simp only [enqueue, hmod]
      norm_num
  · obtain ⟨ht0, hts, hhead, hdata⟩ := hne hl
    have hlen1 : 1 ≤ l.length := by
      cases l with
      | nil => exact absurd rfl hl
      | cons a as => simp
    have hh0 : 0 ≤ r.head_index := by
      rw [hhead]
      exact Int.emod_nonneg _ (by omega)
    have hmod : cppMod (r.head_index + 1) size =
        (r.tail_index + (l.length : Int)) % size := by
      rw [cppMod_eq_emod size (by omega), hhead, hc, Int.emod_add_emod]
      congr 1
      ring
    refine ⟨?_, ?_, ?_, fun _ => ⟨ht0, hts, ?_, ?_⟩⟩
    · simp [enqueue, hc]
    · simp only [List.length_append, List.length_cons, List.length_nil]
      omega
    · intro hcontra
      simp at hcontra
    · show cppMod (r.head_index + 1) size = _
      rw [hmod]
      congr 1
      simp only [enqueue, List.length_append, List.length_cons, List.length_nil]
      omega
    · intro i hi
      have hileng : i < l.length + 1 := by simpa using hi
      show (r.enqueue v).data ((r.tail_index + i) % size) = _
      rcases eq_or_ne i l.length with hi1 | hi1
      · subst hi1
        simp only [enqueue, hmod, if_true, if_pos]
        rw [List.getD_eq_getElem (l ++ [v]) _ (by simp),
          List.getElem_concat_length l v _ rfl]
      · have hilt : i < l.length := by omega
        have hne2 : (r.tail_index + (i : Int)) % (size : Int) ≠
            cppMod (r.head_index + 1) size := by
          rw [hmod]
          intro hEq
          have hsplit : r.tail_index + (l.length : Int) =
              (r.tail_index + i) + ((l.length : Int) - i) := by ring
          rw [hsplit] at hEq
          exact emod_ne_of_lt (by omega) (by omega) hEq.symm
        simp only [enqueue]
        rw [if_neg hne2, hdata i hilt]
        rw [List.getD_eq_getElem l _ hilt,
          List.getD_eq_getElem (l ++ [v]) _ (by simp; omega),
          List.getElem_append_left hilt]

/-- On a non-empty buffer satisfying the invariant, `tail_index = head_index`
holds exactly when a single element is live. -/
theorem inv_tail_eq_head {r : ring_t size} {v : Int} {l : List Int}
    (h : r.inv (v :: l)) : (r.tail_index = r.head_index ↔ l = []) := by
  obtain ⟨hc, hle, -, hne⟩ := h
  obtain ⟨ht0, hts, hhead, -⟩ := hne (by simp)
  have hlen : r.count = (l.length : Int) + 1 := by
    rw [hc]; push_cast [List.length_cons]; ring
  constructor
  · intro hEq
    by_contra hl
    have hlen1 : 1 ≤ l.length := by
      cases l with
      | nil => exact absurd rfl hl
      | cons a as => simp
    have hsplit : r.tail_index + r.count - 1 =
        r.tail_index + (r.count - 1) := by ring
    rw [hsplit] at hhead
    have hne2 : (r.tail_index + (r.count - 1)) % (size : Int) ≠
        r.tail_index % size := by
      refine emod_ne_of_lt (by omega) ?_
      have : l.length + 1 ≤ size := by simpa using hle
      omega
    rw [Int.emod_eq_of_lt ht0 hts] at hne2
    exact hne2 (hhead ▸ hEq.symm ▸ hhead.symm ▸ rfl)
  · intro hl
    subst hl
    have hc1 : r.count = 1 := by simpa using hlen
    rw [hhead, hc1]
    have : r.tail_index + 1 - 1 = r.tail_index := by ring
    rw [this, Int.emod_eq_of_lt ht0 hts]

/-- `dequeue` on a non-empty buffer returns the oldest live value. -/
theorem inv_dequeue_fst {r : ring_t size} {v : Int} {l : List Int}
    (h : r.inv (v :: l)) : (r.dequeue).1 = v := by
  obtain ⟨hc, hle, -, hne⟩ := h
  obtain ⟨ht0, hts, hhead, hdata⟩ := hne (by simp)
  have h0 := hdata 0 (by simp)
  have htmod : (r.tail_index + ((0 : Nat) : Int)) % (size : Int) =
      r.tail_index := by
    push_cast
    rw [add_zero, Int.emod_eq_of_lt ht0 hts]
  rw [htmod] at h0
  simp only [dequeue]
  split <;> simpa using h0

/-- `dequeue` preserves the invariant, dropping the oldest live value. -/
theorem inv_dequeue {r : ring_t size} {v : Int} {l : List Int}
    (h : r.inv (v :: l)) : (r.dequeue).2.inv l := by
  have hth := inv_tail_eq_head h
  obtain ⟨hc, hle, -, hne⟩ := h
  obtain ⟨ht0, hts, hhead, hdata⟩ := hne (by simp)
  have hsize : 1 ≤ size := by
    have : 1 ≤ (v :: l).length := by simp
    omega
  rcases eq_or_ne l [] with hl | hl
  · subst hl
    have hEq : r.tail_index = r.head_index := hth.mpr rfl
    simp only [dequeue, if_pos hEq]
    exact inv_clear r
  · have hneq : r.tail_index ≠ r.head_index := fun hEq => hl (hth.mp hEq)
    simp only [dequeue, if_neg hneq]
    have hlen1 : 1 ≤ l.length := by
      cases l with
      | nil => exact absurd rfl hl
      | cons a as => simp
    have hc' : r.count - 1 = (l.length : Int) := by
      rw [hc]; push_cast [List.length_cons]; ring
    have htmod : cppMod (r.tail_index + 1) size = (r.tail_index + 1) % size :=
      cppMod_eq_emod size (by omega)
    refine ⟨hc', ?_, fun hcontra => absurd hcontra hl, fun _ => ⟨?_, ?_, ?_, ?_⟩⟩
    · have : (v :: l).length ≤ size := hle
      simp at this
      omega
    · rw [htmod]
      exact Int.emod_nonneg _ (by omega)
    · rw [htmod]
      exact Int.emod_lt_of_pos _ (by exact_mod_cast hsize)
    · show r.head_index = _
      dsimp only
      rw [htmod, hhead]
      have hsplit : (r.tail_index + 1) % (size : Int) + (r.count - 1) - 1 =
          (r.tail_index + 1) % (size : Int) + (r.count - 2) := by ring
      rw [hsplit, Int.emod_add_emod]
      congr 1
      ring
    · intro i hi
      show r.data _ = _
      dsimp only
      rw [htmod, Int.emod_add_emod]
      have harg : r.tail_index + 1 + (i : Int) =
          r.tail_index + (((i + 1 : Nat) : Nat) : Int) := by push_cast; ring
      rw [harg, hdata (i + 1) (by simp; omega)]
      simp

/-- Every reachable state satisfies the abstraction invariant. -/
theorem reachable_inv {r : ring_t size} {l : List Int}
    (h : reachable size r l) : r.inv l := by
  induction h with
  | init => exact inv_init size
  | enqueue v _ hlt ih => exact inv_enqueue v ih hlt
  | dequeue _ ih => exact inv_dequeue ih
  | clear _ ih => exact inv_clear _

/-- `enqueue_all` from scratch is reachable whenever the list fits. -/
theorem reachable_enqueue_all_of {r : ring_t size} {l : List Int}
    (h : reachable size r l) (vs : List Int)
    (hfit : l.length + vs.length ≤ size) :
    reachable size (r.enqueue_all vs) (l ++ vs) := by
  induction vs generalizing r l with
  | nil => simpa using h
  | cons v vs ih =>
    have hstep : reachable size (r.enqueue v) (l ++ [v]) :=
      reachable.enqueue v h (by simp at hfit; omega)
    have := ih hstep (by simp at hfit ⊢; omega)
    simpa using this

/-- Enqueuing a short enough list into the fresh buffer is reachable. -/
theorem reachable_enqueue_all (size : Nat) (vs : List Int)
    (hfit : vs.length ≤ size) :
    reachable size ((init size).enqueue_all vs) vs := by
  have := reachable_enqueue_all_of (reachable.init) vs (by simpa using hfit)
  simpa using this

/-- Under the invariant the forward iterator visits the live values oldest
to newest. -/
theorem inv_iterate_list {r : ring_t size} {l : List Int}
    (h : r.inv l) : r.iterate_list = l := by
  obtain ⟨hc, hle, hemp, hne⟩ := h
  rcases eq_or_ne l [] with hl | hl
  · subst hl
    have : r.count = 0 := by simpa using hc
    simp [iterate_list, this]
  · obtain ⟨ht0, hts, hhead, hdata⟩ := hne hl
    have hlen : r.count.toNat = l.length := by omega
    refine List.ext_getElem ?_ ?_
    · simp only [iterate_list, List.length_map, List.length_range, hlen]
    intro n h1 h2
    have hn : n < l.length := by
      simpa only [iterate_list, List.length_map, List.length_range, hlen]
        using h1
    simp only [iterate_list, List.getElem_map, List.getElem_range]
    rw [fwd_data_index, cppMod_eq_emod size (by omega), hdata n hn,
      List.getD_eq_getElem l _ hn]

/-- On a non-empty invariant-satisfying state, the virtual head is
`tail_index + count - 1` on the nose (not just modulo `size`). -/
theorem inv_virtual_head {r : ring_t size} {l : List Int}
    (h : r.inv l) (hl : l ≠ []) :
    r.get_virtual_head = r.tail_index + r.count - 1 := by
  obtain ⟨hc, hle, -, hne⟩ := h
  obtain ⟨ht0, hts, hhead, -⟩ := hne hl
  have hlen1 : 1 ≤ l.length := by
    cases l with
    | nil => exact absurd rfl hl
    | cons a as => simp
  have hcnt : 1 ≤ r.count := by omega
  have hcle : r.count ≤ (size : Int) := by omega
  rcases lt_or_le (r.tail_index + r.count - 1) size with hAlt | hAge
  · have hhd : r.head_index = r.tail_index + r.count - 1 := by
      rw [hhead, Int.emod_eq_of_lt (by omega) hAlt]
    rw [get_virtual_head, hhd, if_neg (by omega)]
  · have hmod2 : (r.tail_index + r.count - 1) % (size : Int) =
        r.tail_index + r.count - 1 - size := by
      have h1 : (r.tail_index + r.count - 1 - size + (size : Int) * 1) %
          (size : Int) = (r.tail_index + r.count - 1 - size) % size :=
        Int.add_mul_emod_self_left _ _ _
      have h2 : r.tail_index + r.count - 1 - size + (size : Int) * 1 =
          r.tail_index + r.count - 1 := by ring
      rw [h2] at h1
      rw [h1, Int.emod_eq_of_lt (by omega) (by omega)]
    have hhd : r.head_index = r.tail_index + r.count - 1 - size := by
      rw [hhead, hmod2]
    rw [get_virtual_head, hhd, if_pos (by omega)]
    omega

/-- Under the invariant, each valid reverse step reads the live value that
many steps before the newest. -/
theorem inv_rev_read {r : ring_t size} {l : List Int}
    (h : r.inv l) (hl : l ≠ []) (i : Nat) (hi : i < l.length) :
    r.data (r.rev_data_index i) = l.getD (l.length - 1 - i) 0 := by
  have hvh := inv_virtual_head h hl
  obtain ⟨hc, hle, -, hne⟩ := h
  obtain ⟨ht0, hts, hhead, hdata⟩ := hne hl
  have harg : r.get_virtual_head - (i : Int) =
      r.tail_index + ((l.length - 1 - i : Nat) : Int) := by
    rw [hvh, hc]
    omega
  rw [rev_data_index, harg, cppMod_eq_emod size (by omega)]
  exact hdata _ (by omega)

/-- Under the invariant the reverse iterator visits the live values newest
to oldest. -/
theorem inv_iterate_reverse_list {r : ring_t size} {l : List Int}
    (h : r.inv l) : r.iterate_reverse_list = l.reverse := by
  have hc := h.1
  rcases eq_or_ne l [] with hl | hl
  · subst hl
    have : r.count = 0 := by simpa using hc
    simp [iterate_reverse_list, this]
  · have hlen : r.count.toNat = l.length := by omega
    refine List.ext_getElem ?_ ?_
    · simp only [iterate_reverse_list, List.length_map, List.length_range,
        List.length_reverse, hlen]
    intro n h1 h2
    have hn : n < l.length := by
      simpa only [iterate_reverse_list, List.length_map, List.length_range,
        hlen] using h1
    simp only [iterate_reverse_list, List.getElem_map, List.getElem_range]
    rw [inv_rev_read h hl n hn, List.getElem_reverse,
      List.getD_eq_getElem l _ (by omega)]

end ring_t

/-! ## Characterizing the match evaluator loops -/

/-- Once `counter` has passed `guess_back`, the loop exits with the current
`result`. -/
theorem guess_loop_past (r : n_back_buffer) (g : Int) (fuel : Nat)
    (c hv : Int) (res : Bool) (h : g < c) :
    guess_loop r g fuel c hv res = res := by
  cases fuel with
  | zero => rfl
  | succ fuel =>
    simp only [guess_loop]
    rw [if_neg (by omega)]

/-- From any `counter` in `[1, guess_back]`, the loop's value is the
comparison made at `counter = guess_back`. -/
theorem guess_loop_run (r : n_back_buffer) (g : Int) :
    ∀ (fuel : Nat) (c hv : Int) (res : Bool), 1 ≤ c → c ≤ g → g < r.count →
    (g - c).toNat < fuel →
    guess_loop r g fuel c hv res =
      decide (r.data (r.rev_data_index g) = hv) := by
  intro fuel
  induction fuel with
  | zero => intro c hv res h1 h2 h3 h4; omega
  | succ fuel ih =>
    intro c hv res h1 h2 h3 h4
    simp only [guess_loop]
    rw [if_pos ⟨by omega, by omega⟩, if_neg (by omega)]
    rcases eq_or_ne c g with hcg | hcg
    · subst hcg
      rw [if_pos rfl]
      exact guess_loop_past r c fuel (c + 1) hv _ (by omega)
    · rw [if_neg hcg]
      exact ih (c + 1) hv res (by omega) (by omega) h3 (by omega)

/-- For an in-range positive guess, `is_guess_correct` compares the value
`guess_back` reverse steps back with the newest value. -/
theorem is_guess_correct_pos (r : n_back_buffer) (g : Int)
    (h1 : 1 ≤ g) (h2 : g < r.count) :
    is_guess_correct r g =
      decide (r.data (r.rev_data_index g) = r.data (r.rev_data_index 0)) := by
  simp only [is_guess_correct, ring_t.get_count]
  rw [if_pos h2]
  simp only [guess_loop]
  rw [if_pos ⟨by omega, by omega⟩]
  simp only [if_true]
  exact guess_loop_run r g _ 1 _ false (by omega) h1 h2 (by omega)

/-- A guess of `0` is never reported correct: the `counter == 0` iteration
only records `head_value`, and the loop then exits before any comparison. -/
theorem is_guess_correct_zero (r : n_back_buffer) (h : 0 < r.count) :
    is_guess_correct r 0 = false := by
  simp only [is_guess_correct, ring_t.get_count]
  rw [if_pos h]
  simp only [guess_loop]
  rw [if_pos ⟨le_refl 0, h⟩]
  simp only [if_true]
  exact guess_loop_past r 0 _ 1 _ false (by omega)

/-- An out-of-range guess (`guess_back >= count`) is reported `false`. -/
theorem is_guess_correct_oob (r : n_back_buffer) (g : Int)
    (h : r.get_count ≤ g) : is_guess_correct r g = false := by
  simp only [is_guess_correct, ring_t.get_count] at *
  rw [if_neg (by omega)]

/-- A negative guess is also reported `false` (the loop guard
`guess_back >= counter` fails immediately). -/
theorem is_guess_correct_neg (r : n_back_buffer) (g : Int) (h : g < 0) :
    is_guess_correct r g = false := by
  simp only [is_guess_correct, ring_t.get_count]
  split
  · simp only [guess_loop]
    rw [if_neg (by omega)]
  · rfl

/-- The `has_nback` loop from `counter = c ≥ 1` succeeds exactly when some
later valid reverse position holds `head_value`. -/
theorem nback_loop_run (r : n_back_buffer) :
    ∀ (fuel : Nat) (c hv : Int), 1 ≤ c → (r.count - c).toNat < fuel →
    (nback_loop r fuel c hv = true ↔
      ∃ i : Int, c ≤ i ∧ i < r.count ∧ r.data (r.rev_data_index i) = hv) := by
  intro fuel
  induction fuel with
  | zero => intro c hv h1 h2; omega
  | succ fuel ih =>
    intro c hv h1 h2
    simp only [nback_loop]
    by_cases hc : c < r.count
    · rw [if_pos hc, if_neg (by omega)]
      by_cases hvv : r.data (r.rev_data_index c) = hv
      · rw [if_pos hvv]
        exact ⟨fun _ => ⟨c, le_refl c, hc, hvv⟩, fun _ => rfl⟩
      · rw [if_neg hvv, ih (c + 1) hv (by omega) (by omega)]
        constructor
        · rintro ⟨i, hi1, hi2, hi3⟩
          exact ⟨i, by omega, hi2, hi3⟩
        · rintro ⟨i, hi1, hi2, hi3⟩
          refine ⟨i, ?_, hi2, hi3⟩
          rcases eq_or_ne i c with hic | hic
          · subst hic
            exact absurd hi3 hvv
          · omega
    · rw [if_neg hc]
      simp only [Bool.false_eq_true, false_iff]
      rintro ⟨i, hi1, hi2, hi3⟩
      omega

/-- `has_nback` holds exactly when the buffer is non-empty and some earlier
reverse position holds the newest value. -/
theorem has_nback_char (r : n_back_buffer) :
    has_nback r = true ↔
      0 < r.count ∧ ∃ i : Int, 1 ≤ i ∧ i < r.count ∧
        r.data (r.rev_data_index i) = r.data (r.rev_data_index 0) := by
  rw [has_nback]
  by_cases h : 0 < r.count
  · simp only [nback_loop]
    rw [if_pos h]
    simp only [if_true]
    norm_num
    rw [nback_loop_run r r.count.toNat 1 (r.data (r.rev_data_index 0))
      (by omega) (by omega)]
    exact ⟨fun hex => ⟨h, hex⟩, fun hand => hand.2⟩
  · simp only [nback_loop]
    rw [if_neg h]
    simp only [Bool.false_eq_true, false_iff]
    rintro ⟨hc, -⟩
    exact h hc

/-- Reading a reversed list by `getD` is reading the original from the end. -/
theorem reverse_getD {l : List Int} {i : Nat} (hi : i < l.length) :
    l.reverse.getD i 0 = l.getD (l.length - 1 - i) 0 := by
  rw [List.getD_eq_getElem _ _ (by simpa using hi), List.getElem_reverse,
    List.getD_eq_getElem _ _ (by omega)]

/-- The polling loop returns `false` with the slot untouched, or `true` with
the slot holding a value parsed from some delivered line. -/
theorem guess_poll_loop_spec (input : Nat → Option String) (iters : Int) :
    ∀ (fuel cnt : Nat) (slot : Int) (res : Bool) (out : Int),
    guess_poll_loop input iters fuel cnt slot = (res, out) →
    (res = false → out = slot) ∧
    (res = true → ∃ c line, input c = some line ∧
      sscanf_d (chomp line) = some out) := by
  intro fuel
  induction fuel with
  | zero =>
    intro cnt slot res out hEq
    simp only [guess_poll_loop] at hEq
    cases hEq
    exact ⟨fun _ => rfl, fun h => nomatch h⟩
  | succ fuel ih =>
    intro cnt slot res out hEq
    simp only [guess_poll_loop] at hEq
    by_cases hlt : (cnt : Int) < iters
    · rw [if_pos hlt] at hEq
      cases hin : input cnt with
      | none =>
        simp only [hin] at hEq
        exact ih (cnt + 1) slot res out hEq
      | some line =>
        simp only [hin] at hEq
        cases hp : sscanf_d (chomp line) with
        | none =>
          simp only [hp] at hEq
          exact ih (cnt + 1) slot res out hEq
        | some v =>
          simp only [hp] at hEq
          cases hEq
          constructor
          · intro h
            exact nomatch h
          · intro h
            exact ⟨cnt, line, hin, hp⟩
    · rw [if_neg hlt] at hEq
      cases hEq
      exact ⟨fun _ => rfl, fun h => nomatch h⟩

/-! ## Claim theorems -/

/-- C1 (amended): for every buffer state and every guess `k` with
`0 ≤ k < count`, `is_guess_correct(buffer, k)` returns `true` exactly when
`k ≥ 1` AND the value at reverse position `k` equals the most recent value
(reverse position 0); in particular `k = 6` on `[5,6,7,8,9,4,5]` yields
`true` and `k = 3` yields `false`, but `k = 0` always yields `false`: the
`counter == 0` iteration only records `head_value` and the loop exits before
any comparison, so the claimed self-comparison at `k = 0` never happens. -/
theorem C1_guess_correct_iff (r : n_back_buffer) (k : Int)
    (h0 : 0 ≤ k) (hk : k < r.get_count) :
    (is_guess_correct r k = true ↔
      (1 ≤ k ∧ r.data (r.rev_data_index k) = r.data (r.rev_data_index 0))) := by
  rcases eq_or_lt_of_le h0 with h | h
  · subst h
    rw [is_guess_correct_zero r (by simpa [ring_t.get_count] using hk)]
    simp
  · have h1 : 1 ≤ k := h
    rw [is_guess_correct_pos r k h1 (by simpa [ring_t.get_count] using hk)]
    simp [h1]

/-- C1 counterexample: on the spec's own scenario buffer `[5,6,7,8,9,4,5]`
the value at reverse position 0 trivially equals the most recent value, yet
`is_guess_correct(buffer, 0)` returns `false`, refuting the claimed
equivalence at `k = 0` (which is in range: `0 < count = 7`). -/
theorem C1_counterexample :
    ¬ (is_guess_correct buf_5657 0 = true ↔
      buf_5657.data (buf_5657.rev_data_index 0) =
        buf_5657.data (buf_5657.rev_data_index 0)) := by decide

/-- C1 witness: the amended equivalence at the concrete scenario input
`k = 6` on the buffer `[5,6,7,8,9,4,5]`. -/
theorem C1_witness :
    is_guess_correct buf_5657 6 = true :=
  (C1_guess_correct_iff buf_5657 6 (by decide) (by decide)).mpr (by decide)

/-- C2: in every reachable buffer state holding live values `l` (wrapped or
not), the reverse iterator yields exactly those values newest to oldest,
i.e. `l` reversed. -/
theorem C2_iterate_reverse (size : Nat) (r : ring_t size) (l : List Int)
    (hr : ring_t.reachable size r l) :
    r.iterate_reverse_list = l.reverse :=
  ring_t.inv_iterate_reverse_list (ring_t.reachable_inv hr)

/-- C2 witness: a wrapped state (seven enqueues, two dequeues, two more
enqueues, so the head has wrapped past the end of the backing array). -/
theorem C2_witness :
    ring_t.iterate_reverse_list
        (ring_t.enqueue
          (ring_t.enqueue
            (ring_t.dequeue (ring_t.dequeue
              ((ring_t.init 7).enqueue_all [1, 2, 3, 4, 5, 6, 7])).2).2
            8) 9) =
      ([3, 4, 5, 6, 7, 8, 9] : List Int).reverse :=
  C2_iterate_reverse 7 _ _
    (ring_t.reachable.enqueue 9
      (ring_t.reachable.enqueue 8
        (ring_t.reachable.dequeue (ring_t.reachable.dequeue
          (ring_t.reachable_enqueue_all 7 [1, 2, 3, 4, 5, 6, 7] (by simp))))
        (by simp))
      (by simp))

/-- C3: for every buffer state (reachable or not) and every guess
`k ≥ count`, `is_guess_correct(buffer, k)` returns the ordinary value
`false` (the guard `guess_back < count` simply skips the loop). -/
theorem C3_oob_false (r : n_back_buffer) (k : Int) (h : r.get_count ≤ k) :
    is_guess_correct r k = false :=
  is_guess_correct_oob r k h

/-- C3 witness: an out-of-range guess on the scenario buffer. -/
theorem C3_witness :
    buf_5657.get_count ≤ 10 ∧ is_guess_correct buf_5657 10 = false :=
  ⟨by decide, C3_oob_false buf_5657 10 (by decide)⟩

/-- C4: in every reachable buffer state holding live values `l`,
`has_nback(buffer)` holds exactly when some earlier live element — reverse
position `i ≥ 1` — equals the most recent element; on an empty or
single-element buffer no such `i` exists, so the result is `false`. -/
theorem C4_has_nback_iff (r : n_back_buffer) (l : List Int)
    (hr : ring_t.reachable 7 r l) :
    (has_nback r = true ↔
      ∃ i : Nat, 1 ≤ i ∧ i < l.length ∧
        l.reverse.getD i 0 = l.reverse.getD 0 0) := by
  have hinv := ring_t.reachable_inv hr
  have hc := hinv.1
  rw [has_nback_char]
  constructor
  · rintro ⟨hcnt, i, hi1, hi2, hi3⟩
    have hl : l ≠ [] := by
      intro hnil
      subst hnil
      simp at hc
      omega
    refine ⟨i.toNat, by omega, by omega, ?_⟩
    rw [reverse_getD (by omega), reverse_getD (by omega)]
    have e1 := ring_t.inv_rev_read hinv hl i.toNat (by omega)
    have e0 := ring_t.inv_rev_read hinv hl 0 (by omega)
    rw [Int.toNat_of_nonneg (by omega : (0 : Int) ≤ i)] at e1
    rw [Nat.cast_zero] at e0
    rw [← e1, ← e0]
    exact hi3
  · rintro ⟨i, hi1, hi2, hi3⟩
    have hl : l ≠ [] := by
      intro hnil
      subst hnil
      simp at hi2
    refine ⟨by omega, (i : Int), by omega, by omega, ?_⟩
    have e1 := ring_t.inv_rev_read hinv hl i hi2
    have e0 := ring_t.inv_rev_read hinv hl 0 (by omega)
    rw [Nat.cast_zero] at e0
    rw [e1, e0]
    rw [reverse_getD (by omega), reverse_getD (by omega)] at hi3
    exact hi3

/-- C4 witness: the two scenario buffers — `[3,1,3]` has an n-back match
(via the amended equivalence at `i = 2`), `[1,2,3]` has none. -/
theorem C4_witness :
    has_nback ((ring_t.init 7).enqueue_all [3, 1, 3]) = true ∧
    has_nback ((ring_t.init 7).enqueue_all [1, 2, 3]) = false := by
  constructor
  · exact (C4_has_nback_iff _ [3, 1, 3]
      (ring_t.reachable_enqueue_all 7 [3, 1, 3] (by simp))).mpr
      ⟨2, by decide, by decide, by decide⟩
  · decide

/-- C5: on every reachable non-empty buffer (live values `v :: l`),
`dequeue()` returns the value stored at the tail slot, which is the oldest
live value `v`; `tail_index == head_index` before the call holds exactly when
this removal empties the buffer, in which case the state resets to the
canonical empty state (`count = 0`, `tail = 0`, `head = -1` sentinel);
otherwise the tail advances circularly by one and `count` drops by one. -/
theorem C5_dequeue_spec (r : n_back_buffer) (v : Int) (l : List Int)
    (hr : ring_t.reachable 7 r (v :: l)) :
    (r.dequeue).1 = r.data r.tail_index ∧
    (r.dequeue).1 = v ∧
    (r.tail_index = r.head_index ↔ l = []) ∧
    (l = [] → (r.dequeue).2.count = 0 ∧ (r.dequeue).2.tail_index = 0 ∧
      (r.dequeue).2.head_index = -1) ∧
    (l ≠ [] → (r.dequeue).2.tail_index = cppMod (r.tail_index + 1) 7 ∧
      (r.dequeue).2.count = r.count - 1 ∧
      (r.dequeue).2.head_index = r.head_index) := by
  have hinv := ring_t.reachable_inv hr
  have hth := ring_t.inv_tail_eq_head hinv
  refine ⟨?_, ring_t.inv_dequeue_fst hinv, hth, ?_, ?_⟩
  · simp only [ring_t.dequeue]
    split <;> rfl
  · intro hl
    have hEq : r.tail_index = r.head_index := hth.mpr hl
    simp only [ring_t.dequeue, if_pos hEq, ring_t.clear]
    exact ⟨by trivial, by trivial, by trivial⟩
  · intro hl
    have hneq : r.tail_index ≠ r.head_index := fun hEq => hl (hth.mp hEq)
    simp only [ring_t.dequeue, if_neg hneq]
    exact ⟨by trivial, by trivial, by trivial⟩

/-- C5 witness: dequeuing `[4, 5]` returns the oldest value `4`. -/
theorem C5_witness :
    (((ring_t.init 7).enqueue_all [4, 5]).dequeue).1 = 4 :=
  (C5_dequeue_spec _ 4 [5]
    (ring_t.reachable_enqueue_all 7 [4, 5] (by simp))).2.1

/-- C6: in every reachable state of a positive-capacity buffer, `is_full()`
holds exactly when `count = N`, and (by its very computation) exactly when
the buffer is non-empty with `(head + 1) % N == tail`. -/
theorem C6_is_full_iff (size : Nat) (hpos : 0 < size) (r : ring_t size)
    (l : List Int) (hr : ring_t.reachable size r l) :
    (r.is_full = true ↔ r.get_count = (size : Int)) ∧
    (r.is_full = true ↔ (r.is_empty = false ∧
      cppMod (r.head_index + 1) size = r.tail_index)) := by
  have hinv := ring_t.reachable_inv hr
  obtain ⟨hc, hle, hemp, hne⟩ := hinv
  have hsecond : r.is_full = true ↔ (r.is_empty = false ∧
      cppMod (r.head_index + 1) size = r.tail_index) := by
    simp [ring_t.is_full]
  refine ⟨?_, hsecond⟩
  rw [hsecond]
  rcases eq_or_ne l [] with hl | hl
  · subst hl
    obtain ⟨hh, ht⟩ := hemp rfl
    constructor
    · rintro ⟨hne2, -⟩
      rw [ring_t.is_empty] at hne2
      simp [hh] at hne2
    · intro hcnt
      exfalso
      simp [ring_t.get_count] at hcnt
      simp at hc
      omega
  · obtain ⟨ht0, hts, hhead, -⟩ := hne hl
    have hlen1 : 1 ≤ l.length := by
      cases l with
      | nil => exact absurd rfl hl
      | cons a as => simp
    have hh0 : 0 ≤ r.head_index := by
      rw [hhead]
      exact Int.emod_nonneg _ (by omega)
    have hie : r.is_empty = false := by
      rw [ring_t.is_empty]
      simp
      omega
    have hmod : cppMod (r.head_index + 1) size =
        (r.tail_index + r.count) % size := by
      rw [cppMod_eq_emod size (by omega), hhead, Int.emod_add_emod]
      congr 1
      ring
    constructor
    · rintro ⟨-, hEq⟩
      rw [hmod] at hEq
      simp only [ring_t.get_count]
      by_contra hneq
      have hlt : r.count < (size : Int) := by omega
      have hd := emod_ne_of_lt (a := r.tail_index) (d := r.count)
        (b := size) (by omega) hlt
      rw [Int.emod_eq_of_lt ht0 hts] at hd
      exact hd hEq
    · intro hcnt
      simp only [ring_t.get_count] at hcnt
      refine ⟨hie, ?_⟩
      rw [hmod, hcnt]
      have h1 : (r.tail_index + (size : Int) * 1) % (size : Int) =
          r.tail_index % size := Int.add_mul_emod_self_left _ _ _
      have h2 : r.tail_index + (size : Int) * 1 = r.tail_index + size := by
        ring
      rw [h2] at h1
      rw [h1, Int.emod_eq_of_lt ht0 hts]

/-- C6 witness: after enqueuing `N = 7` values into the fresh buffer,
`is_full()` is `true`. -/
theorem C6_witness :
    ((ring_t.init 7).enqueue_all [1, 2, 3, 4, 5, 6, 7]).is_full = true :=
  (C6_is_full_iff 7 (by omega) _ [1, 2, 3, 4, 5, 6, 7]
    (ring_t.reachable_enqueue_all 7 [1, 2, 3, 4, 5, 6, 7] (by simp))).1.mpr
    (by decide)

/-- C7: after `K ≤ N` consecutive enqueues of `vs` into the fresh buffer,
the forward iterator yields exactly `vs` in insertion order, visiting
`count` elements in total. -/
theorem C7_iterate_insertion_order (size : Nat) (vs : List Int)
    (hfit : vs.length ≤ size) :
    ((ring_t.init size).enqueue_all vs).iterate_list = vs ∧
    ((ring_t.init size).enqueue_all vs).iterate_list.length =
      ((ring_t.init size).enqueue_all vs).get_count.toNat := by
  have hr := ring_t.reachable_enqueue_all size vs hfit
  have hinv := ring_t.reachable_inv hr
  have hit := ring_t.inv_iterate_list hinv
  refine ⟨hit, ?_⟩
  rw [hit]
  have hc := hinv.1
  simp only [ring_t.get_count]
  omega

/-- C7 witness: enqueuing `[5, 6, 7]` into the fresh capacity-7 buffer. -/
theorem C7_witness :
    ((ring_t.init 7).enqueue_all [5, 6, 7]).iterate_list = [5, 6, 7] ∧
    ((ring_t.init 7).enqueue_all [5, 6, 7]).iterate_list.length =
      ((ring_t.init 7).enqueue_all [5, 6, 7]).get_count.toNat :=
  C7_iterate_insertion_order 7 [5, 6, 7] (by simp)

/-- C8: along every contract-respecting sequence of operations (each state
reachable by enqueue-when-not-full, dequeue-when-not-empty, clear),
`get_count()` stays between `0` and `N` inclusive. -/
theorem C8_count_bounds (size : Nat) (r : ring_t size) (l : List Int)
    (hr : ring_t.reachable size r l) :
    0 ≤ r.get_count ∧ r.get_count ≤ (size : Int) := by
  have hinv := ring_t.reachable_inv hr
  have hc := hinv.1
  have hle := hinv.2.1
  constructor <;> simp only [ring_t.get_count] <;> omega

/-- C8 witness: bounds at the concrete scenario buffer. -/
theorem C8_witness :
    0 ≤ buf_5657.get_count ∧ buf_5657.get_count ≤ ((7 : Nat) : Int) :=
  C8_count_bounds 7 buf_5657 [5, 6, 7, 8, 9, 4, 5]
    (ring_t.reachable_enqueue_all 7 [5, 6, 7, 8, 9, 4, 5] (by simp))

/-- C10: on every reachable state, for every reverse-iterator step index
`m_inc ≥ 0` with `is_valid()` (i.e. `m_inc < count`), the quantity
`virtual_head - m_inc` is non-negative — so the C `%` never sees a negative
operand — and `get_data_index()` lies in `[0, N)`, inside the backing
array. -/
theorem C10_rev_index_in_range (size : Nat) (r : ring_t size) (l : List Int)
    (hr : ring_t.reachable size r l) (m_inc : Int) (h0 : 0 ≤ m_inc)
    (hvalid : r.it_is_valid m_inc = true) :
    0 ≤ r.get_virtual_head - m_inc ∧
    0 ≤ r.rev_data_index m_inc ∧ r.rev_data_index m_inc < size := by
  have hinv := ring_t.reachable_inv hr
  have hc := hinv.1
  have hle := hinv.2.1
  have hlt : m_inc < r.count := by
    simpa [ring_t.it_is_valid] using hvalid
  have hl : l ≠ [] := by
    intro hnil
    subst hnil
    simp at hc
    omega
  have hlen1 : 1 ≤ l.length := by
    cases l with
    | nil => exact absurd rfl hl
    | cons a as => simp
  obtain ⟨ht0, hts, -, -⟩ := hinv.2.2.2 hl
  have hvh := ring_t.inv_virtual_head hinv hl
  have hpos : 0 ≤ r.get_virtual_head - m_inc := by omega
  refine ⟨hpos, ?_, ?_⟩
  · rw [ring_t.rev_data_index, cppMod_eq_emod size hpos]
    exact Int.emod_nonneg _ (by omega)
  · rw [ring_t.rev_data_index, cppMod_eq_emod size hpos]
    exact Int.emod_lt_of_pos _ (by omega)

/-- C10 witness: step index 3 on the scenario buffer. -/
theorem C10_witness :
    0 ≤ buf_5657.get_virtual_head - 3 ∧
    0 ≤ buf_5657.rev_data_index 3 ∧ buf_5657.rev_data_index 3 < 7 :=
  C10_rev_index_in_range 7 buf_5657 [5, 6, 7, 8, 9, 4, 5]
    (ring_t.reachable_enqueue_all 7 [5, 6, 7, 8, 9, 4, 5] (by simp)) 3
    (by decide) (by decide)

/-- C9: over any input schedule, `try_get_guess_with_timeout` returns `true`
only with a successfully parsed integer guess written to the output slot —
and when it returns `false` (all polling slices exhausted with no successful
parse) the output slot still holds its entry value; moreover the line `"7\n"`
arriving in the first slice yields `true` with the slot set to `7`. -/
theorem C9_try_get_guess_contract (opt : c_optional Int)
    (input : Nat → Option String) (slot : Int) (res : Bool) (out : Int)
    (hrun : try_get_guess_with_timeout opt input slot = (res, out)) :
    (res = false → out = slot) ∧
    (res = true → ∃ c line, input c = some line ∧
      sscanf_d (chomp line) = some out) ∧
    (input 0 = some "7\n" → 0 < iterations_before_give_up opt →
      res = true ∧ out = 7) := by
  have hspec := guess_poll_loop_spec input (iterations_before_give_up opt)
    ((iterations_before_give_up opt).toNat + 1) 0 slot res out hrun
  refine ⟨hspec.1, hspec.2, ?_⟩
  intro hin hpos
  simp only [try_get_guess_with_timeout, guess_poll_loop] at hrun
  rw [if_pos (by exact_mod_cast hpos)] at hrun
  simp only [hin] at hrun
  have hparse : sscanf_d (chomp "7\n") = some 7 := by decide
  simp only [hparse] at hrun
  cases hrun
  exact ⟨rfl, rfl⟩

/-- C9 witness: the default two-second deadline (40 slices) with `"7\n"`
arriving in the first slice. -/
theorem C9_witness :
    ((true : Bool) = false → (7 : Int) = 0) ∧
    (true = true → ∃ c line,
      (fun n : Nat => if n = 0 then some "7\n" else none) c = some line ∧
      sscanf_d (chomp line) = some 7) ∧
    ((fun n : Nat => if n = 0 then some "7\n" else none) 0 = some "7\n" →
      0 < iterations_before_give_up ⟨false, 0⟩ →
      (true : Bool) = true ∧ (7 : Int) = 7) :=
  C9_try_get_guess_contract ⟨false, 0⟩
    (fun n : Nat => if n = 0 then some "7\n" else none) 0 true 7 (by decide)
